import Mathlib

set_option maxHeartbeats 1000000

namespace TicTacAI

/-! Shallow embedding of the tic-tac-toe decision engine in `TICTACAI.py`
(class `UltimateTicTacToeAI`).  The 9-cell board `self.board` is a list of
cells; the in-place mutation discipline of the source (place a mark, recurse,
remove the mark) is embedded twice: as pure functions that pass the updated
board to the recursive call, and as state-passing functions (`...St`) that
thread the mutated board exactly as the source does, so that the restoration
invariant can be stated and proved. -/

/-- A cell of the 3×3 board: `' '`, `'X'` (MarkA, the AI) or `'O'` (MarkB). -/
inductive Cell where
  | empty
  | X
  | O
deriving DecidableEq, Repr

/-- The board `self.board`: an ordered list of cells, row-major, 9 cells in use. -/
abbrev Board := List Cell

/-- Reading `self.board[i]`.  Out-of-range reads return `empty`; the source
only ever indexes in range. -/
def cellAt (b : Board) (i : Nat) : Cell := b.getD i .empty

/-- Scores and the alpha/beta bounds of the search: integers extended with
the two float infinities `-math.inf` and `math.inf` used by the source. -/
inductive XInt where
  | bot
  | num (z : Int)
  | top
deriving DecidableEq, Repr

/-- The order on scores and bounds (`<=` of the source's float comparisons). -/
def XInt.le : XInt → XInt → Prop
  | .bot, _ => True
  | .num _, .bot => False
  | .num a, .num b => a ≤ b
  | .num _, .top => True
  | .top, .top => True
  | .top, .bot => False
  | .top, .num _ => False

instance XInt.decLe : (a b : XInt) → Decidable (XInt.le a b)
  | .bot, .bot => isTrue trivial
  | .bot, .num _ => isTrue trivial
  | .bot, .top => isTrue trivial
  | .num _, .bot => isFalse (fun h => h)
  | .num a, .num b => inferInstanceAs (Decidable (a ≤ b))
  | .num _, .top => isTrue trivial
  | .top, .top => isTrue trivial
  | .top, .bot => isFalse (fun h => h)
  | .top, .num _ => isFalse (fun h => h)

instance : LinearOrder XInt where
  le := XInt.le
  le_refl a := by show XInt.le a a; cases a <;> simp [XInt.le]
  le_trans a b c := by
    show XInt.le a b → XInt.le b c → XInt.le a c
    cases a <;> cases b <;> cases c <;> simp [XInt.le] <;> omega
  le_antisymm a b := by
    show XInt.le a b → XInt.le b a → a = b
    cases a <;> cases b <;> simp [XInt.le] <;> omega
  le_total a b := by
    show XInt.le a b ∨ XInt.le b a
    cases a <;> cases b <;> simp [XInt.le] <;> omega
  decidableLE := XInt.decLe

theorem XInt.bot_le' (a : XInt) : XInt.bot ≤ a := by cases a <;> trivial

theorem XInt.le_top' (a : XInt) : a ≤ XInt.top := by cases a <;> trivial

theorem XInt.bot_lt_num (z : Int) : XInt.bot < XInt.num z :=
  lt_of_le_not_le (XInt.bot_le' _) (fun h => h)

theorem XInt.num_lt_top (z : Int) : XInt.num z < XInt.top :=
  lt_of_le_not_le (XInt.le_top' _) (fun h => h)

theorem XInt.bot_lt_top : XInt.bot < XInt.top :=
  lt_of_le_not_le (XInt.bot_le' _) (fun h => h)

/-! ### BoardState operations -/

/-- `available_moves`: indices of empty cells, in ascending order. -/
def availableMoves (b : Board) : List Nat :=
  (List.range b.length).filter (fun i => cellAt b i == .empty)

/-- `empty_squares`: `' ' in self.board`. -/
def emptySquares (b : Board) : Bool := b.contains .empty

/-- `check_winner(square, letter)`: did the move at `square` win?  Checks the
row of `square`, the column of `square`, and — whenever `square` is even —
both diagonals. -/
def checkWinner (b : Board) (square : Nat) (letter : Cell) : Bool :=
  let rowInd := square / 3
  let row := [cellAt b (rowInd * 3), cellAt b (rowInd * 3 + 1), cellAt b (rowInd * 3 + 2)]
  if row.all (· == letter) then true
  else
    let colInd := square % 3
    let column := [cellAt b colInd, cellAt b (colInd + 3), cellAt b (colInd + 6)]
    if column.all (· == letter) then true
    else if square % 2 == 0 then
      let diagonal1 := [cellAt b 0, cellAt b 4, cellAt b 8]
      if diagonal1.all (· == letter) then true
      else
        let diagonal2 := [cellAt b 2, cellAt b 4, cellAt b 6]
        diagonal2.all (· == letter)
    else false

/-- `check_winner_any(letter)`: some complete row, column or diagonal of `letter`. -/
def checkWinnerAny (b : Board) (letter : Cell) : Bool :=
  ((List.range 3).any (fun row => (List.range 3).all (fun col => cellAt b (row * 3 + col) == letter)))
  || ((List.range 3).any (fun col => (List.range 3).all (fun row => cellAt b (row * 3 + col) == letter)))
  || ([0, 4, 8].all (fun i => cellAt b i == letter))
  || ([2, 4, 6].all (fun i => cellAt b i == letter))

/-- `make_move(square, letter)`: returns the success flag together with the
updated board and `self.current_winner`.  The `False` return is the
occupied-cell failure signal (`OccupiedCellError` of the specification). -/
def makeMove (b : Board) (currentWinner : Option Cell) (square : Nat) (letter : Cell) :
    Bool × Board × Option Cell :=
  if cellAt b square == .empty then
    let b' := b.set square letter
    let cw := if checkWinner b' square letter then some letter else currentWinner
    (true, b', cw)
  else
    (false, b, currentWinner)

/-! ### HeuristicEvaluator -/

/-- The eight lines scanned by `evaluate_board`. -/
def linesList : List (List Nat) :=
  [[0, 1, 2], [3, 4, 5], [6, 7, 8], [0, 3, 6], [1, 4, 7], [2, 5, 8], [0, 4, 8], [2, 4, 6]]

/-- The per-line score of `evaluate_board`, as a function of the three values
of the line. -/
def lineDeltaVals (values : List Cell) : Int :=
  let xCount := values.count .X
  let oCount := values.count .O
  let emptyCount := values.count .empty
  if xCount == 2 && emptyCount == 1 then 10
  else if oCount == 2 && emptyCount == 1 then -10
  else if xCount == 1 && emptyCount == 2 then 1
  else if oCount == 1 && emptyCount == 2 then -1
  else 0

/-- One iteration of the `for line in lines` loop of `evaluate_board`. -/
def lineDelta (b : Board) (line : List Nat) : Int :=
  lineDeltaVals (line.map (cellAt b))

/-- `evaluate_board`: static heuristic score of the board. -/
def evaluateBoard (b : Board) : Int :=
  if checkWinnerAny b .X then 100
  else if checkWinnerAny b .O then -100
  else
    let score := linesList.foldl (fun acc line => acc + lineDelta b line) 0
    let score :=
      if cellAt b 4 == .X then score + 3
      else if cellAt b 4 == .O then score - 3
      else score
    [0, 2, 6, 8].foldl
      (fun acc corner =>
        if cellAt b corner == .X then acc + 2
        else if cellAt b corner == .O then acc - 2
        else acc)
      score

/-! ### SearchEngine: minimax with alpha-beta pruning

The source recursion terminates because each placed mark strictly reduces the
number of empty cells; the embedding makes this explicit with a fuel
argument.  Fuel is consumed only when recursing below a non-terminal
position, so any fuel at least the number of empty cells (the callers use the
board length) reproduces the source exactly. -/

/-- The three terminal checks performed, in order, at the top of `minimax`. -/
def terminalResult (b : Board) (depth : Nat) : Option (XInt × Int) :=
  if checkWinnerAny b .X then some (.num (10 - (depth : Int)), -1)
  else if checkWinnerAny b .O then some (.num (-10 + (depth : Int)), -1)
  else if !emptySquares b then some (.num 0, -1)
  else none

/-- The maximizing loop of `minimax`: iterate over moves, keep the strictly
best score (first move wins ties), and under pruning raise `alpha` and break
on `beta <= alpha`.  `child m a w` is the score of the recursive call on the
board with `m` played, with window `(a, w)`. -/
def maxLoop (child : Nat → XInt → XInt → XInt) (useAB : Bool) (beta : XInt) :
    List Nat → XInt → XInt → Int → XInt × Int
  | [], _, best, bestMove => (best, bestMove)
  | m :: rest, alpha, best, bestMove =>
    let score := child m alpha beta
    let best' := if best < score then score else best
    let bestMove' := if best < score then (m : Int) else bestMove
    if useAB then
      let alpha' := max alpha score
      if beta ≤ alpha' then (best', bestMove')
      else maxLoop child useAB beta rest alpha' best' bestMove'
    else maxLoop child useAB beta rest alpha best' bestMove'

/-- The minimizing loop of `minimax`, symmetric to `maxLoop`. -/
def minLoop (child : Nat → XInt → XInt → XInt) (useAB : Bool) (alpha : XInt) :
    List Nat → XInt → XInt → Int → XInt × Int
  | [], _, best, bestMove => (best, bestMove)
  | m :: rest, beta, best, bestMove =>
    let score := child m alpha beta
    let best' := if score < best then score else best
    let bestMove' := if score < best then (m : Int) else bestMove
    if useAB then
      let beta' := min beta score
      if beta' ≤ alpha then (best', bestMove')
      else minLoop child useAB alpha rest beta' best' bestMove'
    else minLoop child useAB alpha rest beta best' bestMove'

/-- `minimax(depth, is_maximizing, alpha, beta, use_alpha_beta)`, returning
`(score, best_move)`.  The board argument makes the source's `self.board`
explicit; the fuel argument makes termination explicit (see above). -/
def minimax (useAB : Bool) : Nat → Board → Nat → Bool → XInt → XInt → XInt × Int
  | 0, b, depth, _, _, _ => (terminalResult b depth).getD (.num 0, -1)
  | fuel + 1, b, depth, isMax, alpha, beta =>
    match terminalResult b depth with
    | some r => r
    | none =>
      if isMax then
        maxLoop (fun m a w => (minimax useAB fuel (b.set m .X) (depth + 1) false a w).1)
          useAB beta (availableMoves b) alpha .bot (-1)
      else
        minLoop (fun m a w => (minimax useAB fuel (b.set m .O) (depth + 1) true a w).1)
          useAB alpha (availableMoves b) beta .top (-1)

/-! ### State-passing embedding of the mutation discipline

The source mutates `self.board` in place (`self.board[move] = mark`, recurse,
`self.board[move] = ' '`).  The `...St` functions thread that mutable board
explicitly and return it, so that the restoration invariant — the board is
bit-for-bit the one passed in on every exit path, including pruning breaks —
can be stated about the embedding itself. -/

/-- State-passing maximizing loop: `rec b a w` is the recursive `minimax`
call on the mutated board `b`, returning its result and the board it leaves
behind. -/
def stMaxLoop (rec : Board → XInt → XInt → (XInt × Int) × Board) (useAB : Bool) (beta : XInt) :
    Board → List Nat → XInt → XInt → Int → (XInt × Int) × Board
  | b, [], _, best, bestMove => ((best, bestMove), b)
  | b, m :: rest, alpha, best, bestMove =>
    let r := rec (b.set m .X) alpha beta
    let score := r.1.1
    let b' := r.2.set m .empty
    let best' := if best < score then score else best
    let bestMove' := if best < score then (m : Int) else bestMove
    if useAB then
      let alpha' := max alpha score
      if beta ≤ alpha' then ((best', bestMove'), b')
      else stMaxLoop rec useAB beta b' rest alpha' best' bestMove'
    else stMaxLoop rec useAB beta b' rest alpha best' bestMove'

/-- State-passing minimizing loop, symmetric to `stMaxLoop`. -/
def stMinLoop (rec : Board → XInt → XInt → (XInt × Int) × Board) (useAB : Bool) (alpha : XInt) :
    Board → List Nat → XInt → XInt → Int → (XInt × Int) × Board
  | b, [], _, best, bestMove => ((best, bestMove), b)
  | b, m :: rest, beta, best, bestMove =>
    let r := rec (b.set m .O) alpha beta
    let score := r.1.1
    let b' := r.2.set m .empty
    let best' := if score < best then score else best
    let bestMove' := if score < best then (m : Int) else bestMove
    if useAB then
      let beta' := min beta score
      if beta' ≤ alpha then ((best', bestMove'), b')
      else stMinLoop rec useAB alpha b' rest beta' best' bestMove'
    else stMinLoop rec useAB alpha b' rest beta best' bestMove'

/-- `minimax` with the mutable board threaded through exactly as the source
mutates it. -/
def minimaxSt (useAB : Bool) : Nat → Board → Nat → Bool → XInt → XInt → (XInt × Int) × Board
  | 0, b, depth, _, _, _ => ((terminalResult b depth).getD (.num 0, -1), b)
  | fuel + 1, b, depth, isMax, alpha, beta =>
    match terminalResult b depth with
    | some r => (r, b)
    | none =>
      if isMax then
        stMaxLoop (fun b' a w => minimaxSt useAB fuel b' (depth + 1) false a w)
          useAB beta b (availableMoves b) alpha .bot (-1)
      else
        stMinLoop (fun b' a w => minimaxSt useAB fuel b' (depth + 1) true a w)
          useAB alpha b (availableMoves b) beta .top (-1)

/-- The probing loop shared by `get_ai_move_easy` / `get_ai_move_medium`:
place `mark` on each candidate move in turn, test `check_winner`, and remove
the mark again before returning or continuing. -/
def probeSt (mark : Cell) : Board → List Nat → Option Nat × Board
  | b, [] => (none, b)
  | b, m :: rest =>
    let b1 := b.set m mark
    if checkWinner b1 m mark then (some m, b1.set m .empty)
    else probeSt mark (b1.set m .empty) rest

/-! ### DifficultyStrategy: the four move-selection policies

`random.choice(seq)` is modelled by an injected index generator
`rng : List Nat → Nat`: on a nonempty sequence it returns the element at
index `rng seq % seq.length` (every element is reachable, matching a uniform
draw); on an empty sequence `random.choice` raises `IndexError`, modelled as
`none`.  The `random.random() < 0.3` coin of the easy tier is an injected
boolean. -/

/-- `random.choice`: `none` models the `IndexError` raised on an empty
sequence. -/
def choice (rng : List Nat → Nat) (l : List Nat) : Option Nat :=
  if l.isEmpty then none else some (l.getD (rng l % l.length) 0)

/-- `get_ai_move_easy`: with the 0.3-probability coin, probe for an immediate
win, then for a block, else a random available move. -/
def easyMove (b : Board) (coin : Bool) (rng : List Nat → Nat) : Option Nat :=
  let available := availableMoves b
  if coin then
    match available.find? (fun m => checkWinner (b.set m .X) m .X) with
    | some m => some m
    | none =>
      match available.find? (fun m => checkWinner (b.set m .O) m .O) with
      | some m => some m
      | none => choice rng available
  else choice rng available

/-- `get_ai_move_medium`: win, block, center, random corner, random edge,
random remaining move. -/
def mediumMove (b : Board) (rng : List Nat → Nat) : Option Nat :=
  let available := availableMoves b
  match available.find? (fun m => checkWinner (b.set m .X) m .X) with
  | some m => some m
  | none =>
    match available.find? (fun m => checkWinner (b.set m .O) m .O) with
    | some m => some m
    | none =>
      if 4 ∈ available then some 4
      else
        let availableCorners := [0, 2, 6, 8].filter (fun c => c ∈ available)
        if !availableCorners.isEmpty then choice rng availableCorners
        else
          let availableEdges := [1, 3, 5, 7].filter (fun e => e ∈ available)
          if !availableEdges.isEmpty then choice rng availableEdges
          else choice rng available

/-- `get_ai_move_hard`: opening shortcut with 8 or more available moves,
otherwise the full pruned search from depth 0. -/
def hardMove (b : Board) (rng : List Nat → Nat) : Option Int :=
  let available := availableMoves b
  if 8 ≤ available.length then
    if 4 ∈ available then some 4
    else (choice rng [0, 2, 6, 8]).map (fun n => (n : Int))
  else some (minimax true b.length b 0 true .bot .top).2

/-- `get_ai_move_unbeatable`: the full pruned search from depth 0. -/
def unbeatableMove (b : Board) : Int :=
  (minimax true b.length b 0 true .bot .top).2

/-- `get_ai_move_easy` with the mutable board threaded through its probing. -/
def easySt (b : Board) (coin : Bool) (rng : List Nat → Nat) : Option Nat × Board :=
  let available := availableMoves b
  if coin then
    match probeSt .X b available with
    | (some m, b') => (some m, b')
    | (none, b') =>
      match probeSt .O b' available with
      | (some m, b'') => (some m, b'')
      | (none, b'') => (choice rng available, b'')
  else (choice rng available, b)

/-- `get_ai_move_medium` with the mutable board threaded through its probing. -/
def mediumSt (b : Board) (rng : List Nat → Nat) : Option Nat × Board :=
  let available := availableMoves b
  match probeSt .X b available with
  | (some m, b') => (some m, b')
  | (none, b') =>
    match probeSt .O b' available with
    | (some m, b'') => (some m, b'')
    | (none, b'') =>
      if 4 ∈ available then (some 4, b'')
      else
        let availableCorners := [0, 2, 6, 8].filter (fun c => c ∈ available)
        if !availableCorners.isEmpty then (choice rng availableCorners, b'')
        else
          let availableEdges := [1, 3, 5, 7].filter (fun e => e ∈ available)
          if !availableEdges.isEmpty then (choice rng availableEdges, b'')
          else (choice rng available, b'')

/-- `get_ai_move_hard` with the mutable board threaded through the search. -/
def hardSt (b : Board) (rng : List Nat → Nat) : Option Int × Board :=
  let available := availableMoves b
  if 8 ≤ available.length then
    if 4 ∈ available then (some 4, b)
    else ((choice rng [0, 2, 6, 8]).map (fun n => (n : Int)), b)
  else
    let r := minimaxSt true b.length b 0 true .bot .top
    (some r.1.2, r.2)

/-- `get_ai_move_unbeatable` with the mutable board threaded through the
search. -/
def unbeatableSt (b : Board) : Int × Board :=
  let r := minimaxSt true b.length b 0 true .bot .top
  (r.1.2, r.2)

/-! ### Specification-side definitions

These definitions follow the wording of the specification and of the claims;
they are compared with the source-side definitions above. -/

/-- A line is fully occupied by `mark`. -/
def lineFull (b : Board) (l : List Nat) (mark : Cell) : Bool :=
  l.all (fun i => cellAt b i == mark)

/-- Specification `winner_any`: some of the 8 lines is fully occupied by
`mark`. -/
def specHasLine (b : Board) (mark : Cell) : Bool :=
  linesList.any (fun l => lineFull b l mark)

/-- Specification reading of `winner_for`: placing `mark` at `square`
completed a winning line, i.e. some of the 8 lines passes through `square`
and is fully occupied by `mark` (on the board with the mark already placed). -/
def specCompletedLine (b : Board) (square : Nat) (mark : Cell) : Bool :=
  linesList.any (fun l => l.contains square && lineFull b l mark)

/-- The row through `square`. -/
def rowThrough (square : Nat) : List Nat :=
  [square / 3 * 3, square / 3 * 3 + 1, square / 3 * 3 + 2]

/-- The column through `square`. -/
def colThrough (square : Nat) : List Nat :=
  [square % 3, square % 3 + 3, square % 3 + 6]

/-- The per-line score described by the claim for `evaluate_board`: +10 for
two MarkA and one empty, −10 for two MarkB and one empty, +1 for one MarkA
and two empties, −1 for one MarkB and two empties, 0 for mixed lines. -/
def specLineScore (values : List Cell) : Int :=
  if values.count .X == 2 && values.count .empty == 1 then 10
  else if values.count .O == 2 && values.count .empty == 1 then -10
  else if values.count .X == 1 && values.count .empty == 2 then 1
  else if values.count .O == 1 && values.count .empty == 2 then -1
  else 0

/-- The claimed closed form of `evaluate_board`: ±100 on a completed line,
else the sum of the 8 per-line scores plus the center bonus (±3) and the
corner bonuses (±2 each). -/
def specEvaluate (b : Board) : Int :=
  if specHasLine b .X then 100
  else if specHasLine b .O then -100
  else
    (linesList.map (fun l => specLineScore (l.map (cellAt b)))).sum
      + (if cellAt b 4 == .X then 3 else if cellAt b 4 == .O then -3 else 0)
      + ([0, 2, 6, 8].map
          (fun c => if cellAt b c == .X then 2 else if cellAt b c == .O then -2 else 0)).sum

/-! ### Basic lemmas about the board operations -/

theorem mem_availableMoves {b : Board} {m : Nat} :
    m ∈ availableMoves b ↔ m < b.length ∧ cellAt b m = .empty := by
  simp [availableMoves, List.mem_filter, List.mem_range]

theorem cellAt_eq_getElem {b : Board} {i : Nat} (h : i < b.length) : cellAt b i = b[i] :=
  List.getD_eq_getElem b _ h

theorem set_self_of_cellAt {b : Board} {m : Nat} (h : cellAt b m = .empty) :
    b.set m .empty = b := by
  induction b generalizing m with
  | nil => rfl
  | cons c t ih =>
    cases m with
    | zero =>
      simp only [cellAt, List.getD_cons_zero] at h
      simp [List.set_cons_zero, h]
    | succ n =>
      simp only [cellAt, List.getD_cons_succ] at h
      simp [List.set, ih h]

theorem set_empty_of_mem_avail {b : Board} {m : Nat} (h : m ∈ availableMoves b) :
    b.set m .empty = b :=
  set_self_of_cellAt (mem_availableMoves.mp h).2

theorem emptySquares_true_iff {b : Board} :
    emptySquares b = true ↔ ∃ m, m ∈ availableMoves b := by
  constructor
  · intro h
    have hmem : Cell.empty ∈ b := by
      simpa [emptySquares, List.contains_eq_any_beq, List.any_eq_true, eq_comm] using h
    obtain ⟨i, hi, hget⟩ := List.mem_iff_getElem.mp hmem
    exact ⟨i, mem_availableMoves.mpr ⟨hi, by rw [cellAt_eq_getElem hi]; exact hget⟩⟩
  · rintro ⟨m, hm⟩
    obtain ⟨hlt, hc⟩ := mem_availableMoves.mp hm
    have hg : b[m] = Cell.empty := (cellAt_eq_getElem hlt) ▸ hc
    have hmem : Cell.empty ∈ b := hg ▸ List.getElem_mem hlt
    simpa [emptySquares, List.contains_eq_any_beq, List.any_eq_true, eq_comm] using hmem

theorem emptySquares_false_of_avail_nil {b : Board} (h : availableMoves b = []) :
    emptySquares b = false := by
  by_contra hne
  have : emptySquares b = true := by
    cases hcase : emptySquares b with
    | true => rfl
    | false => exact absurd hcase hne
  obtain ⟨m, hm⟩ := emptySquares_true_iff.mp this
  rw [h] at hm
  exact absurd hm (List.not_mem_nil m)

/-! ### C3: the fixed order of the terminal checks in `minimax` -/

/-- C3: every call to `minimax` first checks the terminal states in the fixed
order MarkA win (score `10 − depth`, no move), then MarkB win
(score `−10 + depth`, no move), then full board (score `0`, no move); in
particular, when both marks have a completed line the MarkA-win score is
returned. -/
theorem minimax_terminal_order (useAB : Bool) (fuel : Nat) (b : Board) (depth : Nat)
    (isMax : Bool) (alpha beta : XInt) :
    (checkWinnerAny b .X = true →
      minimax useAB fuel b depth isMax alpha beta = (.num (10 - (depth : Int)), -1))
    ∧ (checkWinnerAny b .X = false → checkWinnerAny b .O = true →
      minimax useAB fuel b depth isMax alpha beta = (.num (-10 + (depth : Int)), -1))
    ∧ (checkWinnerAny b .X = false → checkWinnerAny b .O = false → emptySquares b = false →
      minimax useAB fuel b depth isMax alpha beta = (.num 0, -1))
    ∧ (checkWinnerAny b .X = true → checkWinnerAny b .O = true →
      minimax useAB fuel b depth isMax alpha beta = (.num (10 - (depth : Int)), -1)) := by
  refine ⟨?_, ?_, ?_, ?_⟩ <;> intro h <;>
    first
      | (intro h2 h3; cases fuel <;> simp [minimax, terminalResult, h, h2, h3])
      | (intro h2; cases fuel <;> simp [minimax, terminalResult, h, h2])
      | (cases fuel <;> simp [minimax, terminalResult, h])

/-- Witness for C3 on a board where both marks have a completed line: the
MarkA-win score `10 − depth` is the one returned. -/
theorem minimax_terminal_order_witness :
    checkWinnerAny [Cell.X, Cell.X, Cell.X, Cell.O, Cell.O, Cell.O,
      Cell.empty, Cell.empty, Cell.empty] Cell.X = true
    ∧ checkWinnerAny [Cell.X, Cell.X, Cell.X, Cell.O, Cell.O, Cell.O,
      Cell.empty, Cell.empty, Cell.empty] Cell.O = true
    ∧ minimax true 9 [Cell.X, Cell.X, Cell.X, Cell.O, Cell.O, Cell.O,
      Cell.empty, Cell.empty, Cell.empty] 2 true .bot .top = (.num 8, -1) :=
  ⟨by decide, by decide,
    (minimax_terminal_order true 9 [Cell.X, Cell.X, Cell.X, Cell.O, Cell.O, Cell.O,
      Cell.empty, Cell.empty, Cell.empty] 2 true .bot .top).2.2.2 (by decide) (by decide)⟩

/-! ### C5: `make_move` on occupied and empty cells -/

/-- C5: applying a move to a non-empty cell fails (the `False` return is the
`OccupiedCellError` signal) and leaves the board unchanged; applying a move
to an empty cell succeeds and places the mark at that cell. -/
theorem makeMove_spec (b : Board) (cw : Option Cell) (square : Nat) (letter : Cell) :
    (cellAt b square ≠ .empty →
      makeMove b cw square letter = (false, b, cw))
    ∧ (cellAt b square = .empty →
      (makeMove b cw square letter).1 = true
      ∧ (makeMove b cw square letter).2.1 = b.set square letter
      ∧ (square < b.length → cellAt ((makeMove b cw square letter).2.1) square = letter)) := by
  constructor
  · intro h
    simp [makeMove, h]
  · intro h
    refine ⟨by simp [makeMove, h], by simp [makeMove, h], ?_⟩
    intro hlt
    have hlt' : square < (b.set square letter).length := by simpa using hlt
    have h1 : (makeMove b cw square letter).2.1 = b.set square letter := by simp [makeMove, h]
    rw [h1, cellAt_eq_getElem hlt']
    exact List.getElem_set_self hlt'

/-- Witness for C5: both the occupied-cell failure (board unchanged) and the
empty-cell success at a concrete board. -/
theorem makeMove_spec_witness :
    cellAt [Cell.X, Cell.empty, Cell.empty, Cell.empty, Cell.empty, Cell.empty,
      Cell.empty, Cell.empty, Cell.empty] 0 ≠ Cell.empty
    ∧ makeMove [Cell.X, Cell.empty, Cell.empty, Cell.empty, Cell.empty, Cell.empty,
        Cell.empty, Cell.empty, Cell.empty] none 0 Cell.O
      = (false, [Cell.X, Cell.empty, Cell.empty, Cell.empty, Cell.empty, Cell.empty,
        Cell.empty, Cell.empty, Cell.empty], none) :=
  ⟨by decide,
    (makeMove_spec [Cell.X, Cell.empty, Cell.empty, Cell.empty, Cell.empty, Cell.empty,
      Cell.empty, Cell.empty, Cell.empty] none 0 Cell.O).1 (by decide)⟩

/-! ### C6: the closed form of `evaluate_board` -/

instance : Fintype Cell :=
  ⟨⟨{Cell.empty, Cell.X, Cell.O}, by decide⟩, fun c => by cases c <;> decide⟩

theorem lineDeltaVals_eq_specLineScore (v0 v1 v2 : Cell) :
    lineDeltaVals [v0, v1, v2] = specLineScore [v0, v1, v2] := by
  revert v0 v1 v2
  decide

theorem checkWinnerAny_eq_specHasLine (b : Board) (mark : Cell) :
    checkWinnerAny b mark = specHasLine b mark := by
  have hr : List.range 3 = [0, 1, 2] := rfl
  simp [checkWinnerAny, specHasLine, linesList, lineFull, hr, Bool.or_assoc]

theorem bonus_step_center (acc : Int) (c : Cell) :
    (if (c == Cell.X) = true then acc + 3 else if (c == Cell.O) = true then acc - 3 else acc)
      = acc + (if (c == Cell.X) = true then 3 else if (c == Cell.O) = true then -3 else 0) := by
  split_ifs <;> omega

theorem bonus_step_corner (acc : Int) (c : Cell) :
    (if (c == Cell.X) = true then acc + 2 else if (c == Cell.O) = true then acc - 2 else acc)
      = acc + (if (c == Cell.X) = true then 2 else if (c == Cell.O) = true then -2 else 0) := by
  split_ifs <;> omega

theorem lineFold_eq_specSum (b : Board) :
    List.foldl (fun acc line => acc + lineDelta b line) 0 linesList
      = (linesList.map (fun l => specLineScore (l.map (cellAt b)))).sum := by
  simp only [linesList, List.foldl_cons, List.foldl_nil, List.map_cons, List.map_nil,
    List.sum_cons, List.sum_nil, lineDelta, lineDeltaVals_eq_specLineScore]
  omega

/-- C6: for every board, `evaluate_board` equals the claimed closed form:
100 when MarkA has a completed line, else −100 when MarkB has one, else the
sum over the 8 lines of the two-in-a-row / one-in-a-row line scores, plus the
center bonus and the corner bonuses. -/
theorem evaluateBoard_eq_specEvaluate (b : Board) : evaluateBoard b = specEvaluate b := by
  by_cases h1 : specHasLine b Cell.X = true
  · simp [evaluateBoard, specEvaluate, checkWinnerAny_eq_specHasLine, h1]
  · by_cases h2 : specHasLine b Cell.O = true
    · simp [evaluateBoard, specEvaluate, checkWinnerAny_eq_specHasLine, h1, h2]
    · unfold evaluateBoard specEvaluate
      rw [checkWinnerAny_eq_specHasLine, checkWinnerAny_eq_specHasLine, if_neg h1, if_neg h2,
        if_neg h1, if_neg h2, lineFold_eq_specSum]
      simp only [bonus_step_center, bonus_step_corner, List.foldl_cons, List.foldl_nil,
        List.map_cons, List.map_nil, List.sum_cons, List.sum_nil]
      omega

/-! ### C9: what `check_winner` actually inspects -/

/-- C9 counterexample: on the board `[X,·,X,·,X,·,X,·,·]` (anti-diagonal
2-4-6 full of X, cell 0 holding X), `check_winner` answers `true` for the
move at cell 0, although no winning line passes through cell 0 — placing X
at 0 did not complete any line, refuting the claimed characterisation. -/
theorem checkWinner_ne_specCompletedLine :
    checkWinner [Cell.X, Cell.empty, Cell.X, Cell.empty, Cell.X, Cell.empty,
        Cell.X, Cell.empty, Cell.empty] 0 Cell.X = true
    ∧ specCompletedLine [Cell.X, Cell.empty, Cell.X, Cell.empty, Cell.X, Cell.empty,
        Cell.X, Cell.empty, Cell.empty] 0 Cell.X = false := by
  decide

/-- C9 (amended): `check_winner` returns true iff the row through
`last_move`, the column through `last_move`, or — exactly when `last_move`
is even — one of the two diagonals (both are inspected, whether or not they
pass through `last_move`) is fully occupied by `mark`; for odd cells no
diagonal is inspected. -/
theorem checkWinner_iff_candidates (b : Board) (square : Nat) (mark : Cell) :
    checkWinner b square mark = true ↔
      ((∀ i ∈ rowThrough square, cellAt b i = mark)
        ∨ (∀ i ∈ colThrough square, cellAt b i = mark)
        ∨ (square % 2 = 0 ∧
            ((∀ i ∈ ([0, 4, 8] : List Nat), cellAt b i = mark)
              ∨ (∀ i ∈ ([2, 4, 6] : List Nat), cellAt b i = mark)))) := by
  by_cases heven : square % 2 = 0 <;>
    simp [checkWinner, rowThrough, colThrough, heven, and_assoc]

/-! ### C4: decisions requested on a full board -/

/-- C4 counterexample: on a full board the Easy and Medium tiers fall
through to `random.choice` on the empty list of available moves, which
raises `IndexError` (modelled as `none`) — a crash escaping from the tier,
not a distinguished no-move signal. -/
theorem fullBoard_easy_medium_crash :
    easyMove [Cell.X, Cell.O, Cell.X, Cell.O, Cell.X, Cell.O, Cell.O, Cell.X, Cell.O]
        false (fun _ => 0) = none
    ∧ mediumMove [Cell.X, Cell.O, Cell.X, Cell.O, Cell.X, Cell.O, Cell.O, Cell.X, Cell.O]
        (fun _ => 0) = none := by
  decide

theorem terminalResult_of_full {b : Board} (depth : Nat) (h : emptySquares b = false) :
    ∃ s, terminalResult b depth = some (s, -1) := by
  simp only [terminalResult, h, Bool.not_false, if_true]
  split_ifs <;> exact ⟨_, rfl⟩

theorem minimax_snd_of_full (useAB : Bool) (fuel : Nat) (b : Board) (depth : Nat)
    (isMax : Bool) (alpha beta : XInt) (h : emptySquares b = false) :
    (minimax useAB fuel b depth isMax alpha beta).2 = -1 := by
  obtain ⟨s, hs⟩ := terminalResult_of_full depth h
  cases fuel <;> simp [minimax, hs]

/-- C4 (amended): requesting a decision on a full board makes the Hard and
Unbeatable tiers return the sentinel `−1` (not an ordinary move value in
0–8), while the Easy and Medium tiers propagate the empty-sequence error of
`random.choice` (modelled `none`) instead of a distinguished signal. -/
theorem fullBoard_decisions (b : Board) (coin : Bool) (rng : List Nat → Nat)
    (h : availableMoves b = []) :
    easyMove b coin rng = none
    ∧ mediumMove b rng = none
    ∧ hardMove b rng = some (-1)
    ∧ unbeatableMove b = -1 := by
  have hfull : emptySquares b = false := emptySquares_false_of_avail_nil h
  refine ⟨?_, ?_, ?_, ?_⟩
  · cases coin <;> simp [easyMove, h, choice]
  · simp [mediumMove, h, choice]
  · simp [hardMove, h, choice, minimax_snd_of_full true b.length b 0 true .bot .top hfull]
  · simp [unbeatableMove, minimax_snd_of_full true b.length b 0 true .bot .top hfull]

/-- Witness for the amended C4 at a concrete full board. -/
theorem fullBoard_decisions_witness :
    availableMoves [Cell.X, Cell.O, Cell.X, Cell.O, Cell.X, Cell.O, Cell.O, Cell.X, Cell.O] = []
    ∧ hardMove [Cell.X, Cell.O, Cell.X, Cell.O, Cell.X, Cell.O, Cell.O, Cell.X, Cell.O]
        (fun _ => 0) = some (-1) :=
  ⟨by decide,
    (fullBoard_decisions [Cell.X, Cell.O, Cell.X, Cell.O, Cell.X, Cell.O, Cell.O, Cell.X, Cell.O]
      false (fun _ => 0) (by decide)).2.2.1⟩

/-! ### C8: the Hard tier against the Unbeatable tier -/

theorem choice_mem {rng : List Nat → Nat} {l : List Nat} (h : l ≠ []) :
    ∃ m ∈ l, choice rng l = some m := by
  have hlen : 0 < l.length := List.length_pos.mpr h
  have hidx : rng l % l.length < l.length := Nat.mod_lt _ hlen
  refine ⟨l[rng l % l.length], List.getElem_mem hidx, ?_⟩
  have hne : l.isEmpty = false := by
    cases l with
    | nil => exact absurd rfl h
    | cons x t => rfl
  simp only [choice, hne, Bool.false_eq_true, if_false]
  rw [List.getD_eq_getElem _ _ hidx]

/-- C8: with 8 or 9 available moves the Hard tier returns cell 4 when it is
available and otherwise a random corner from `{0,2,6,8}`; on every board
with fewer than 8 available moves it returns exactly the move of the
Unbeatable tier (both run the identical unconstrained pruned search from
depth 0, maximizing). -/
theorem hardMove_spec (b : Board) (rng : List Nat → Nat) :
    (8 ≤ (availableMoves b).length →
      ((4 ∈ availableMoves b → hardMove b rng = some 4)
        ∧ (4 ∉ availableMoves b →
            ∃ c ∈ ([0, 2, 6, 8] : List Nat), hardMove b rng = some ((c : Nat) : Int))))
    ∧ ((availableMoves b).length < 8 → hardMove b rng = some (unbeatableMove b)) := by
  refine ⟨fun h8 => ⟨fun h4 => ?_, fun h4 => ?_⟩, fun hlt => ?_⟩
  · simp [hardMove, h8, h4]
  · obtain ⟨c, hc, hchoice⟩ := @choice_mem rng [0, 2, 6, 8] (by decide)
    exact ⟨c, hc, by simp [hardMove, h8, h4, hchoice]⟩
  · simp [hardMove, unbeatableMove, Nat.not_le.mpr hlt]

/-- Witness for C8 on a concrete board with fewer than 8 available moves:
Hard and Unbeatable coincide. -/
theorem hardMove_spec_witness :
    (availableMoves [Cell.X, Cell.O, Cell.X, Cell.O, Cell.X, Cell.O, Cell.O, Cell.empty,
        Cell.empty]).length < 8
    ∧ hardMove [Cell.X, Cell.O, Cell.X, Cell.O, Cell.X, Cell.O, Cell.O, Cell.empty, Cell.empty]
        (fun _ => 0)
      = some (unbeatableMove [Cell.X, Cell.O, Cell.X, Cell.O, Cell.X, Cell.O, Cell.O,
        Cell.empty, Cell.empty]) :=
  ⟨by decide,
    (hardMove_spec [Cell.X, Cell.O, Cell.X, Cell.O, Cell.X, Cell.O, Cell.O, Cell.empty,
      Cell.empty] (fun _ => 0)).2 (by decide)⟩

/-! ### C7: the Medium tier priority chain -/

theorem find?_eq_filter_head? {α : Type} (p : α → Bool) (l : List α) :
    l.find? p = (l.filter p).head? := by
  induction l with
  | nil => rfl
  | cons x t ih =>
    by_cases h : p x = true
    · rw [List.find?_cons_of_pos _ h, List.filter_cons_of_pos h, List.head?_cons]
    · rw [List.find?_cons_of_neg _ h, List.filter_cons_of_neg h, ih]

theorem avail_lt_nine {b : Board} {m : Nat} (h9 : b.length = 9) (hm : m ∈ availableMoves b) :
    m < 9 :=
  h9 ▸ (mem_availableMoves.mp hm).1

/-- C7: the Medium tier is a deterministic priority chain.  With at least
one available move it returns: the first probed immediate winning move when
one exists; else the first probed blocking move; else cell 4 when empty;
else an element of the available corners `{0,2,6,8}`; else an element of the
available edges `{1,3,5,7}`; the fall-through random branch is unreachable
on a 9-cell board, so the result is always an available move; and on the
empty board it deterministically returns 4. -/
theorem mediumMove_spec (b : Board) (rng : List Nat → Nat) (h9 : b.length = 9)
    (hne : availableMoves b ≠ []) :
    (((availableMoves b).filter (fun m => checkWinner (b.set m .X) m .X)) ≠ [] →
      mediumMove b rng
        = ((availableMoves b).filter (fun m => checkWinner (b.set m .X) m .X)).head?)
    ∧ (((availableMoves b).filter (fun m => checkWinner (b.set m .X) m .X)) = [] →
       ((availableMoves b).filter (fun m => checkWinner (b.set m .O) m .O)) ≠ [] →
      mediumMove b rng
        = ((availableMoves b).filter (fun m => checkWinner (b.set m .O) m .O)).head?)
    ∧ (((availableMoves b).filter (fun m => checkWinner (b.set m .X) m .X)) = [] →
       ((availableMoves b).filter (fun m => checkWinner (b.set m .O) m .O)) = [] →
       4 ∈ availableMoves b →
      mediumMove b rng = some 4)
    ∧ (((availableMoves b).filter (fun m => checkWinner (b.set m .X) m .X)) = [] →
       ((availableMoves b).filter (fun m => checkWinner (b.set m .O) m .O)) = [] →
       4 ∉ availableMoves b →
       (([0, 2, 6, 8] : List Nat).filter (fun c => c ∈ availableMoves b)) ≠ [] →
      ∃ m ∈ (([0, 2, 6, 8] : List Nat).filter (fun c => c ∈ availableMoves b)),
        mediumMove b rng = some m)
    ∧ (((availableMoves b).filter (fun m => checkWinner (b.set m .X) m .X)) = [] →
       ((availableMoves b).filter (fun m => checkWinner (b.set m .O) m .O)) = [] →
       4 ∉ availableMoves b →
       (([0, 2, 6, 8] : List Nat).filter (fun c => c ∈ availableMoves b)) = [] →
       (([1, 3, 5, 7] : List Nat).filter (fun e => e ∈ availableMoves b)) ≠ [] →
      ∃ m ∈ (([1, 3, 5, 7] : List Nat).filter (fun e => e ∈ availableMoves b)),
        mediumMove b rng = some m)
    ∧ (∃ m ∈ availableMoves b, mediumMove b rng = some m)
    ∧ mediumMove (List.replicate 9 Cell.empty) rng = some 4 := by
  have hfX := find?_eq_filter_head? (fun m => checkWinner (b.set m .X) m .X) (availableMoves b)
  have hfO := find?_eq_filter_head? (fun m => checkWinner (b.set m .O) m .O) (availableMoves b)
  have hcornersSub : ∀ m ∈ (([0, 2, 6, 8] : List Nat).filter (fun c => c ∈ availableMoves b)),
      m ∈ availableMoves b := by
    intro m hm
    exact of_decide_eq_true (List.mem_filter.mp hm).2
  have hedgesSub : ∀ m ∈ (([1, 3, 5, 7] : List Nat).filter (fun e => e ∈ availableMoves b)),
      m ∈ availableMoves b := by
    intro m hm
    exact of_decide_eq_true (List.mem_filter.mp hm).2
  refine ⟨?_, ?_, ?_, ?_, ?_, ?_, ?_⟩
  · intro hw
    obtain ⟨w, t, hwl⟩ := List.exists_cons_of_ne_nil hw
    simp [mediumMove, hfX, hwl]
  · intro hw hbl
    obtain ⟨w, t, hwl⟩ := List.exists_cons_of_ne_nil hbl
    simp [mediumMove, hfX, hfO, hw, hwl]
  · intro hw hbl h4
    simp [mediumMove, hfX, hfO, hw, hbl, h4]
  · intro hw hbl h4 hcor
    obtain ⟨m, hm, hch⟩ :=
      @choice_mem rng (([0, 2, 6, 8] : List Nat).filter
        (fun c => c ∈ availableMoves b)) hcor
    refine ⟨m, hm, ?_⟩
    simp [mediumMove, hfX, hfO, hw, hbl, h4, List.isEmpty_iff, hcor, hch]
  · intro hw hbl h4 hcor hedg
    obtain ⟨m, hm, hch⟩ :=
      @choice_mem rng (([1, 3, 5, 7] : List Nat).filter
        (fun e => e ∈ availableMoves b)) hedg
    refine ⟨m, hm, ?_⟩
    simp [mediumMove, hfX, hfO, hw, hbl, h4, List.isEmpty_iff, hcor, hedg, hch]
  · by_cases hw : ((availableMoves b).filter (fun m => checkWinner (b.set m .X) m .X)) = []
    case neg =>
      obtain ⟨w, t, hwl⟩ := List.exists_cons_of_ne_nil hw
      refine ⟨w, ?_, by simp [mediumMove, hfX, hwl]⟩
      exact (List.mem_filter.mp (hwl ▸ List.mem_cons_self w t)).1
    case pos =>
    by_cases hbl : ((availableMoves b).filter (fun m => checkWinner (b.set m .O) m .O)) = []
    case neg =>
      obtain ⟨w, t, hwl⟩ := List.exists_cons_of_ne_nil hbl
      refine ⟨w, ?_, by simp [mediumMove, hfX, hfO, hw, hwl]⟩
      exact (List.mem_filter.mp (hwl ▸ List.mem_cons_self w t)).1
    case pos =>
    by_cases h4 : 4 ∈ availableMoves b
    case pos => exact ⟨4, h4, by simp [mediumMove, hfX, hfO, hw, hbl, h4]⟩
    case neg =>
    by_cases hcor : (([0, 2, 6, 8] : List Nat).filter (fun c => c ∈ availableMoves b)) = []
    case neg =>
      obtain ⟨m, hm, hch⟩ :=
        @choice_mem rng (([0, 2, 6, 8] : List Nat).filter
          (fun c => c ∈ availableMoves b)) hcor
      exact ⟨m, hcornersSub m hm,
        by simp [mediumMove, hfX, hfO, hw, hbl, h4, List.isEmpty_iff, hcor, hch]⟩
    case pos =>
    by_cases hedg : (([1, 3, 5, 7] : List Nat).filter (fun e => e ∈ availableMoves b)) = []
    case neg =>
      obtain ⟨m, hm, hch⟩ :=
        @choice_mem rng (([1, 3, 5, 7] : List Nat).filter
          (fun e => e ∈ availableMoves b)) hedg
      exact ⟨m, hedgesSub m hm,
        by simp [mediumMove, hfX, hfO, hw, hbl, h4, List.isEmpty_iff, hcor, hedg, hch]⟩
    case pos =>
      exfalso
      obtain ⟨m, t, hml⟩ := List.exists_cons_of_ne_nil hne
      have hm : m ∈ availableMoves b := hml ▸ List.mem_cons_self m t
      have hm9 : m < 9 := avail_lt_nine h9 hm
      have hnotc : ∀ c ∈ ([0, 2, 6, 8] : List Nat), c ∉ availableMoves b := by
        intro c hc hmem
        have := List.filter_eq_nil_iff.mp hcor c hc
        simp [hmem] at this
      have hnote : ∀ e ∈ ([1, 3, 5, 7] : List Nat), e ∉ availableMoves b := by
        intro e he hmem
        have := List.filter_eq_nil_iff.mp hedg e he
        simp [hmem] at this
      interval_cases m
      · exact hnotc 0 (by decide) hm
      · exact hnote 1 (by decide) hm
      · exact hnotc 2 (by decide) hm
      · exact hnote 3 (by decide) hm
      · exact h4 hm
      · exact hnote 5 (by decide) hm
      · exact hnotc 6 (by decide) hm
      · exact hnote 7 (by decide) hm
      · exact hnotc 8 (by decide) hm
  · simp [mediumMove, availableMoves, cellAt]
    decide

/-- Witness for C7: on the board `[B,B,·,·,·,·,·,·,·]` the Medium tier
returns the blocking move 2. -/
theorem mediumMove_spec_witness :
    mediumMove [Cell.O, Cell.O, Cell.empty, Cell.empty, Cell.empty, Cell.empty,
      Cell.empty, Cell.empty, Cell.empty] (fun _ => 0) = some 2 := by
  have h := (mediumMove_spec [Cell.O, Cell.O, Cell.empty, Cell.empty, Cell.empty, Cell.empty,
    Cell.empty, Cell.empty, Cell.empty] (fun _ => 0) (by decide) (by decide)).2.1
    (by decide) (by decide)
  simpa using h

/-! ### Scores returned by `minimax` are always finite integers -/

theorem maxLoop_cons (child : Nat → XInt → XInt → XInt) (useAB : Bool) (beta : XInt)
    (m : Nat) (t : List Nat) (alpha best : XInt) (bm : Int) :
    maxLoop child useAB beta (m :: t) alpha best bm =
      (let score := child m alpha beta
       let best' := if best < score then score else best
       let bestMove' := if best < score then (m : Int) else bm
       if useAB then
         let alpha' := max alpha score
         if beta ≤ alpha' then (best', bestMove')
         else maxLoop child useAB beta t alpha' best' bestMove'
       else maxLoop child useAB beta t alpha best' bestMove') := rfl

theorem minLoop_cons (child : Nat → XInt → XInt → XInt) (useAB : Bool) (alpha : XInt)
    (m : Nat) (t : List Nat) (beta best : XInt) (bm : Int) :
    minLoop child useAB alpha (m :: t) beta best bm =
      (let score := child m alpha beta
       let best' := if score < best then score else best
       let bestMove' := if score < best then (m : Int) else bm
       if useAB then
         let beta' := min beta score
         if beta' ≤ alpha then (best', bestMove')
         else minLoop child useAB alpha t beta' best' bestMove'
       else minLoop child useAB alpha t beta best' bestMove') := rfl

theorem terminalResult_num {b : Board} {depth : Nat} {r : XInt × Int}
    (h : terminalResult b depth = some r) : ∃ z, r.1 = .num z ∧ r.2 = -1 := by
  unfold terminalResult at h
  split_ifs at h
  · exact ⟨_, by cases h; exact ⟨rfl, rfl⟩⟩
  · exact ⟨_, by cases h; exact ⟨rfl, rfl⟩⟩
  · exact ⟨_, by cases h; exact ⟨rfl, rfl⟩⟩

theorem maxLoop_fst_num (child : Nat → XInt → XInt → XInt) (useAB : Bool) (beta : XInt)
    (hch : ∀ m a w, ∃ z, child m a w = .num z) :
    ∀ (ms : List Nat) (alpha best : XInt) (bm : Int),
      (∃ z, best = .num z) ∨ (best = .bot ∧ ms ≠ []) →
      ∃ z, (maxLoop child useAB beta ms alpha best bm).1 = .num z := by
  intro ms
  induction ms with
  | nil =>
    rintro alpha best bm (⟨z, rfl⟩ | ⟨rfl, hne⟩)
    · exact ⟨z, rfl⟩
    · exact absurd rfl hne
  | cons m t ih =>
    rintro alpha best bm hbest
    obtain ⟨z, hz⟩ := hch m alpha beta
    rw [maxLoop_cons]
    have hnum : ∃ w, (if best < child m alpha beta then child m alpha beta else best) = .num w := by
      rcases hbest with ⟨w, rfl⟩ | ⟨rfl, _⟩
      · by_cases hlt : XInt.num w < child m alpha beta
        · exact ⟨z, by rw [if_pos hlt]; exact hz⟩
        · exact ⟨w, by rw [if_neg hlt]⟩
      · have hlt : XInt.bot < child m alpha beta := hz ▸ XInt.bot_lt_num z
        exact ⟨z, by rw [if_pos hlt]; exact hz⟩
    cases useAB
    · simpa using ih _ _ _ (Or.inl hnum)
    · simp only [if_true]
      by_cases hcut : beta ≤ max alpha (child m alpha beta)
      · simpa [hcut] using hnum
      · simpa [hcut] using ih _ _ _ (Or.inl hnum)

theorem minLoop_fst_num (child : Nat → XInt → XInt → XInt) (useAB : Bool) (alpha : XInt)
    (hch : ∀ m a w, ∃ z, child m a w = .num z) :
    ∀ (ms : List Nat) (beta best : XInt) (bm : Int),
      (∃ z, best = .num z) ∨ (best = .top ∧ ms ≠ []) →
      ∃ z, (minLoop child useAB alpha ms beta best bm).1 = .num z := by
  intro ms
  induction ms with
  | nil =>
    rintro beta best bm (⟨z, rfl⟩ | ⟨rfl, hne⟩)
    · exact ⟨z, rfl⟩
    · exact absurd rfl hne
  | cons m t ih =>
    rintro beta best bm hbest
    obtain ⟨z, hz⟩ := hch m alpha beta
    rw [minLoop_cons]
    have hnum : ∃ w, (if child m alpha beta < best then child m alpha beta else best) = .num w := by
      rcases hbest with ⟨w, rfl⟩ | ⟨rfl, _⟩
      · by_cases hlt : child m alpha beta < XInt.num w
        · exact ⟨z, by rw [if_pos hlt]; exact hz⟩
        · exact ⟨w, by rw [if_neg hlt]⟩
      · have hlt : child m alpha beta < XInt.top := hz ▸ XInt.num_lt_top z
        exact ⟨z, by rw [if_pos hlt]; exact hz⟩
    cases useAB
    · simpa using ih _ _ _ (Or.inl hnum)
    · simp only [if_true]
      by_cases hcut : min beta (child m alpha beta) ≤ alpha
      · simpa [hcut] using hnum
      · simpa [hcut] using ih _ _ _ (Or.inl hnum)

theorem avail_ne_nil_of_terminal_none {b : Board} {depth : Nat}
    (h : terminalResult b depth = none) : availableMoves b ≠ [] := by
  intro hnil
  unfold terminalResult at h
  rw [emptySquares_false_of_avail_nil hnil] at h
  split_ifs at h <;> simp_all

theorem minimax_fst_num (useAB : Bool) :
    ∀ (fuel : Nat) (b : Board) (depth : Nat) (isMax : Bool) (alpha beta : XInt),
      ∃ z, (minimax useAB fuel b depth isMax alpha beta).1 = .num z := by
  intro fuel
  induction fuel with
  | zero =>
    intro b depth isMax alpha beta
    cases h : terminalResult b depth with
    | none => exact ⟨0, by simp [minimax, h]⟩
    | some r =>
      obtain ⟨z, hz, _⟩ := terminalResult_num h
      exact ⟨z, by simp [minimax, h, hz]⟩
  | succ n ih =>
    intro b depth isMax alpha beta
    cases h : terminalResult b depth with
    | some r =>
      obtain ⟨z, hz, _⟩ := terminalResult_num h
      exact ⟨z, by simp [minimax, h, hz]⟩
    | none =>
      have hne := avail_ne_nil_of_terminal_none h
      cases isMax
      · have := minLoop_fst_num
          (fun m a w => (minimax useAB n (b.set m .O) (depth + 1) true a w).1) useAB alpha
          (fun m a w => ih (b.set m .O) (depth + 1) true a w)
          (availableMoves b) beta .top (-1) (Or.inr ⟨rfl, hne⟩)
        simpa [minimax, h] using this
      · have := maxLoop_fst_num
          (fun m a w => (minimax useAB n (b.set m .X) (depth + 1) false a w).1) useAB beta
          (fun m a w => ih (b.set m .X) (depth + 1) false a w)
          (availableMoves b) alpha .bot (-1) (Or.inr ⟨rfl, hne⟩)
        simpa [minimax, h] using this

/-! ### C10: the move returned on a non-terminal board is a legal move -/

theorem maxLoop_snd_mem (child : Nat → XInt → XInt → XInt) (useAB : Bool) (beta : XInt)
    (MS : List Nat) (hch : ∀ m a w, ∃ z, child m a w = .num z) :
    ∀ (ms : List Nat) (alpha best : XInt) (bm : Int),
      (∀ m ∈ ms, m ∈ MS) →
      (((∃ z, best = .num z) ∧ ∃ m ∈ MS, bm = (m : Int)) ∨ (best = .bot ∧ ms ≠ [])) →
      ∃ m ∈ MS, (maxLoop child useAB beta ms alpha best bm).2 = (m : Int) := by
  intro ms
  induction ms with
  | nil =>
    rintro alpha best bm _ (⟨_, hbm⟩ | ⟨_, hne⟩)
    · exact hbm
    · exact absurd rfl hne
  | cons m t ih =>
    rintro alpha best bm hsub hstate
    obtain ⟨z, hz⟩ := hch m alpha beta
    have hmMS : m ∈ MS := hsub m (List.mem_cons_self m t)
    have hstate' :
        (∃ w, (if best < child m alpha beta then child m alpha beta else best) = .num w)
        ∧ ∃ m' ∈ MS, (if best < child m alpha beta then (m : Int) else bm) = (m' : Int) := by
      rcases hstate with ⟨⟨w, rfl⟩, hbm⟩ | ⟨rfl, _⟩
      · by_cases hlt : XInt.num w < child m alpha beta
        · exact ⟨⟨z, by rw [if_pos hlt]; exact hz⟩, ⟨m, hmMS, by rw [if_pos hlt]⟩⟩
        · exact ⟨⟨w, by rw [if_neg hlt]⟩, by rw [if_neg hlt]; exact hbm⟩
      · have hlt : XInt.bot < child m alpha beta := hz ▸ XInt.bot_lt_num z
        exact ⟨⟨z, by rw [if_pos hlt]; exact hz⟩, ⟨m, hmMS, by rw [if_pos hlt]⟩⟩
    have hsub' : ∀ m' ∈ t, m' ∈ MS := fun m' hm' => hsub m' (List.mem_cons_of_mem m hm')
    rw [maxLoop_cons]
    cases useAB
    · simpa using ih _ _ _ hsub' (Or.inl hstate')
    · simp only [if_true]
      by_cases hcut : beta ≤ max alpha (child m alpha beta)
      · simpa [hcut] using hstate'.2
      · simpa [hcut] using ih _ _ _ hsub' (Or.inl hstate')

theorem minLoop_snd_mem (child : Nat → XInt → XInt → XInt) (useAB : Bool) (alpha : XInt)
    (MS : List Nat) (hch : ∀ m a w, ∃ z, child m a w = .num z) :
    ∀ (ms : List Nat) (beta best : XInt) (bm : Int),
      (∀ m ∈ ms, m ∈ MS) →
      (((∃ z, best = .num z) ∧ ∃ m ∈ MS, bm = (m : Int)) ∨ (best = .top ∧ ms ≠ [])) →
      ∃ m ∈ MS, (minLoop child useAB alpha ms beta best bm).2 = (m : Int) := by
  intro ms
  induction ms with
  | nil =>
    rintro beta best bm _ (⟨_, hbm⟩ | ⟨_, hne⟩)
    · exact hbm
    · exact absurd rfl hne
  | cons m t ih =>
    rintro beta best bm hsub hstate
    obtain ⟨z, hz⟩ := hch m alpha beta
    have hmMS : m ∈ MS := hsub m (List.mem_cons_self m t)
    have hstate' :
        (∃ w, (if child m alpha beta < best then child m alpha beta else best) = .num w)
        ∧ ∃ m' ∈ MS, (if child m alpha beta < best then (m : Int) else bm) = (m' : Int) := by
      rcases hstate with ⟨⟨w, rfl⟩, hbm⟩ | ⟨rfl, _⟩
      · by_cases hlt : child m alpha beta < XInt.num w
        · exact ⟨⟨z, by rw [if_pos hlt]; exact hz⟩, ⟨m, hmMS, by rw [if_pos hlt]⟩⟩
        · exact ⟨⟨w, by rw [if_neg hlt]⟩, by rw [if_neg hlt]; exact hbm⟩
      · have hlt : child m alpha beta < XInt.top := hz ▸ XInt.num_lt_top z
        exact ⟨⟨z, by rw [if_pos hlt]; exact hz⟩, ⟨m, hmMS, by rw [if_pos hlt]⟩⟩
    have hsub' : ∀ m' ∈ t, m' ∈ MS := fun m' hm' => hsub m' (List.mem_cons_of_mem m hm')
    rw [minLoop_cons]
    cases useAB
    · simpa using ih _ _ _ hsub' (Or.inl hstate')
    · simp only [if_true]
      by_cases hcut : min beta (child m alpha beta) ≤ alpha
      · simpa [hcut] using hstate'.2
      · simpa [hcut] using ih _ _ _ hsub' (Or.inl hstate')

/-- C10: on a non-terminal board (no completed line for either mark, at
least one empty cell), `minimax` — for either maximizing flag, any
alpha/beta bounds, pruning on or off — returns a best move that is one of
the available empty-cell indices; the first loop iteration always replaces
the infinite initial best score, so the `−1` sentinel never escapes. -/
theorem minimax_move_mem (useAB : Bool) (fuel : Nat) (b : Board) (depth : Nat)
    (isMax : Bool) (alpha beta : XInt) (hfuel : 1 ≤ fuel)
    (hX : checkWinnerAny b .X = false) (hO : checkWinnerAny b .O = false)
    (hemp : emptySquares b = true) :
    ∃ m ∈ availableMoves b, (minimax useAB fuel b depth isMax alpha beta).2 = (m : Int) := by
  obtain ⟨n, rfl⟩ : ∃ n, fuel = n + 1 := ⟨fuel - 1, by omega⟩
  have hterm : terminalResult b depth = none := by simp [terminalResult, hX, hO, hemp]
  have hne : availableMoves b ≠ [] := by
    obtain ⟨m, hm⟩ := emptySquares_true_iff.mp hemp
    intro hnil
    rw [hnil] at hm
    exact absurd hm (List.not_mem_nil m)
  cases isMax
  · have := minLoop_snd_mem
      (fun m a w => (minimax useAB n (b.set m .O) (depth + 1) true a w).1) useAB alpha
      (availableMoves b)
      (fun m a w => minimax_fst_num useAB n (b.set m .O) (depth + 1) true a w)
      (availableMoves b) beta .top (-1) (fun m hm => hm) (Or.inr ⟨rfl, hne⟩)
    simpa [minimax, hterm] using this
  · have := maxLoop_snd_mem
      (fun m a w => (minimax useAB n (b.set m .X) (depth + 1) false a w).1) useAB beta
      (availableMoves b)
      (fun m a w => minimax_fst_num useAB n (b.set m .X) (depth + 1) false a w)
      (availableMoves b) alpha .bot (-1) (fun m hm => hm) (Or.inr ⟨rfl, hne⟩)
    simpa [minimax, hterm] using this

/-- Witness for C10 at a concrete non-terminal board with one empty cell. -/
theorem minimax_move_mem_witness :
    checkWinnerAny [Cell.X, Cell.O, Cell.X, Cell.O, Cell.X, Cell.O, Cell.O, Cell.X,
        Cell.empty] Cell.X = false
    ∧ checkWinnerAny [Cell.X, Cell.O, Cell.X, Cell.O, Cell.X, Cell.O, Cell.O, Cell.X,
        Cell.empty] Cell.O = false
    ∧ emptySquares [Cell.X, Cell.O, Cell.X, Cell.O, Cell.X, Cell.O, Cell.O, Cell.X,
        Cell.empty] = true
    ∧ ∃ m ∈ availableMoves [Cell.X, Cell.O, Cell.X, Cell.O, Cell.X, Cell.O, Cell.O, Cell.X,
        Cell.empty],
      (minimax true 1 [Cell.X, Cell.O, Cell.X, Cell.O, Cell.X, Cell.O, Cell.O, Cell.X,
        Cell.empty] 0 true .bot .top).2 = (m : Int) :=
  ⟨by decide, by decide, by decide,
    minimax_move_mem true 1 [Cell.X, Cell.O, Cell.X, Cell.O, Cell.X, Cell.O, Cell.O, Cell.X,
      Cell.empty] 0 true .bot .top (by decide) (by decide) (by decide) (by decide)⟩

/-! ### C2: the in-place mutation discipline restores the board -/

theorem stMaxLoop_cons (rec : Board → XInt → XInt → (XInt × Int) × Board) (useAB : Bool)
    (beta : XInt) (b : Board) (m : Nat) (t : List Nat) (alpha best : XInt) (bm : Int) :
    stMaxLoop rec useAB beta b (m :: t) alpha best bm =
      (let r := rec (b.set m .X) alpha beta
       let score := r.1.1
       let b' := r.2.set m .empty
       let best' := if best < score then score else best
       let bestMove' := if best < score then (m : Int) else bm
       if useAB then
         let alpha' := max alpha score
         if beta ≤ alpha' then ((best', bestMove'), b')
         else stMaxLoop rec useAB beta b' t alpha' best' bestMove'
       else stMaxLoop rec useAB beta b' t alpha best' bestMove') := rfl

theorem stMinLoop_cons (rec : Board → XInt → XInt → (XInt × Int) × Board) (useAB : Bool)
    (alpha : XInt) (b : Board) (m : Nat) (t : List Nat) (beta best : XInt) (bm : Int) :
    stMinLoop rec useAB alpha b (m :: t) beta best bm =
      (let r := rec (b.set m .O) alpha beta
       let score := r.1.1
       let b' := r.2.set m .empty
       let best' := if score < best then score else best
       let bestMove' := if score < best then (m : Int) else bm
       if useAB then
         let beta' := min beta score
         if beta' ≤ alpha then ((best', bestMove'), b')
         else stMinLoop rec useAB alpha b' t beta' best' bestMove'
       else stMinLoop rec useAB alpha b' t beta best' bestMove') := rfl

theorem stMaxLoop_eq (rec : Board → XInt → XInt → (XInt × Int) × Board)
    (pureRec : Board → XInt → XInt → XInt × Int) (useAB : Bool) (beta : XInt)
    (hrec : ∀ b' a w, rec b' a w = (pureRec b' a w, b')) (b : Board) :
    ∀ (ms : List Nat) (alpha best : XInt) (bm : Int),
      (∀ m ∈ ms, b.set m .empty = b) →
      stMaxLoop rec useAB beta b ms alpha best bm
        = (maxLoop (fun m a w => (pureRec (b.set m .X) a w).1) useAB beta ms alpha best bm, b) := by
  intro ms
  induction ms with
  | nil => intro alpha best bm _; rfl
  | cons m t ih =>
    intro alpha best bm hset
    have hb' : ((rec (b.set m .X) alpha beta).2).set m .empty = b := by
      rw [hrec, List.set_set]
      exact hset m (List.mem_cons_self m t)
    have hs : ((rec (b.set m .X) alpha beta).1).1 = (pureRec (b.set m .X) alpha beta).1 := by
      rw [hrec]
    have hset' : ∀ m' ∈ t, b.set m' .empty = b :=
      fun m' hm' => hset m' (List.mem_cons_of_mem m hm')
    rw [stMaxLoop_cons, maxLoop_cons]
    simp only [hs, hb']
    cases useAB
    · simpa using ih _ _ _ hset'
    · simp only [if_true]
      by_cases hcut : beta ≤ max alpha (pureRec (b.set m .X) alpha beta).1
      · simp [hcut]
      · simpa [hcut] using ih _ _ _ hset'

theorem stMinLoop_eq (rec : Board → XInt → XInt → (XInt × Int) × Board)
    (pureRec : Board → XInt → XInt → XInt × Int) (useAB : Bool) (alpha : XInt)
    (hrec : ∀ b' a w, rec b' a w = (pureRec b' a w, b')) (b : Board) :
    ∀ (ms : List Nat) (beta best : XInt) (bm : Int),
      (∀ m ∈ ms, b.set m .empty = b) →
      stMinLoop rec useAB alpha b ms beta best bm
        = (minLoop (fun m a w => (pureRec (b.set m .O) a w).1) useAB alpha ms beta best bm, b) := by
  intro ms
  induction ms with
  | nil => intro beta best bm _; rfl
  | cons m t ih =>
    intro beta best bm hset
    have hb' : ((rec (b.set m .O) alpha beta).2).set m .empty = b := by
      rw [hrec, List.set_set]
      exact hset m (List.mem_cons_self m t)
    have hs : ((rec (b.set m .O) alpha beta).1).1 = (pureRec (b.set m .O) alpha beta).1 := by
      rw [hrec]
    have hset' : ∀ m' ∈ t, b.set m' .empty = b :=
      fun m' hm' => hset m' (List.mem_cons_of_mem m hm')
    rw [stMinLoop_cons, minLoop_cons]
    simp only [hs, hb']
    cases useAB
    · simpa using ih _ _ _ hset'
    · simp only [if_true]
      by_cases hcut : min beta (pureRec (b.set m .O) alpha beta).1 ≤ alpha
      · simp [hcut]
      · simpa [hcut] using ih _ _ _ hset'

/-- The state-passing `minimaxSt` computes the pure `minimax` result and
returns the board exactly as it received it, on every exit path. -/
theorem minimaxSt_eq (useAB : Bool) :
    ∀ (fuel : Nat) (b : Board) (depth : Nat) (isMax : Bool) (alpha beta : XInt),
      minimaxSt useAB fuel b depth isMax alpha beta
        = (minimax useAB fuel b depth isMax alpha beta, b) := by
  intro fuel
  induction fuel with
  | zero => intro b depth isMax alpha beta; rfl
  | succ n ih =>
    intro b depth isMax alpha beta
    cases h : terminalResult b depth with
    | some r => simp [minimaxSt, minimax, h]
    | none =>
      have hset : ∀ m ∈ availableMoves b, b.set m .empty = b :=
        fun m hm => set_empty_of_mem_avail hm
      cases isMax
      · have := stMinLoop_eq (fun b' a w => minimaxSt useAB n b' (depth + 1) true a w)
          (fun b' a w => minimax useAB n b' (depth + 1) true a w) useAB alpha
          (fun b' a w => ih b' (depth + 1) true a w) b
          (availableMoves b) beta .top (-1) hset
        simpa [minimaxSt, minimax, h] using this
      · have := stMaxLoop_eq (fun b' a w => minimaxSt useAB n b' (depth + 1) false a w)
          (fun b' a w => minimax useAB n b' (depth + 1) false a w) useAB beta
          (fun b' a w => ih b' (depth + 1) false a w) b
          (availableMoves b) alpha .bot (-1) hset
        simpa [minimaxSt, minimax, h] using this

/-- The win/block probing loop computes `find?` over the probed predicate
and hands the board back unchanged. -/
theorem probeSt_eq (mark : Cell) (b : Board) :
    ∀ ms : List Nat, (∀ m ∈ ms, b.set m .empty = b) →
      probeSt mark b ms = (ms.find? (fun m => checkWinner (b.set m mark) m mark), b) := by
  intro ms
  induction ms with
  | nil => intro _; rfl
  | cons m t ih =>
    intro hset
    have hrestore : (b.set m mark).set m .empty = b := by
      rw [List.set_set]
      exact hset m (List.mem_cons_self m t)
    by_cases h : checkWinner (b.set m mark) m mark = true
    · rw [probeSt, if_pos h, hrestore,
        List.find?_cons_of_pos (p := fun m' => checkWinner (b.set m' mark) m' mark) t h]
    · rw [probeSt, if_neg h, hrestore,
        List.find?_cons_of_neg (p := fun m' => checkWinner (b.set m' mark) m' mark) t h]
      exact ih (fun m' hm' => hset m' (List.mem_cons_of_mem m hm'))

theorem easySt_eq (b : Board) (coin : Bool) (rng : List Nat → Nat) :
    easySt b coin rng = (easyMove b coin rng, b) := by
  have hset : ∀ m ∈ availableMoves b, b.set m .empty = b :=
    fun m hm => set_empty_of_mem_avail hm
  cases coin
  · rfl
  · cases hX : (availableMoves b).find? (fun m => checkWinner (b.set m .X) m .X) with
    | some m => simp [easySt, easyMove, probeSt_eq _ b (availableMoves b) hset, hX]
    | none =>
      cases hO : (availableMoves b).find? (fun m => checkWinner (b.set m .O) m .O) with
      | some m => simp [easySt, easyMove, probeSt_eq _ b (availableMoves b) hset, hX, hO]
      | none => simp [easySt, easyMove, probeSt_eq _ b (availableMoves b) hset, hX, hO]

theorem mediumSt_eq (b : Board) (rng : List Nat → Nat) :
    mediumSt b rng = (mediumMove b rng, b) := by
  have hset : ∀ m ∈ availableMoves b, b.set m .empty = b :=
    fun m hm => set_empty_of_mem_avail hm
  cases hX : (availableMoves b).find? (fun m => checkWinner (b.set m .X) m .X) with
  | some m => simp [mediumSt, mediumMove, probeSt_eq _ b (availableMoves b) hset, hX]
  | none =>
    cases hO : (availableMoves b).find? (fun m => checkWinner (b.set m .O) m .O) with
    | some m => simp [mediumSt, mediumMove, probeSt_eq _ b (availableMoves b) hset, hX, hO]
    | none =>
      by_cases h4 : 4 ∈ availableMoves b
      · simp [mediumSt, mediumMove, probeSt_eq _ b (availableMoves b) hset, hX, hO, h4]
      · simp only [mediumSt, mediumMove, probeSt_eq _ b (availableMoves b) hset, hX, hO, h4]
        split_ifs <;> simp [h4]

theorem hardSt_eq (b : Board) (rng : List Nat → Nat) :
    hardSt b rng = (hardMove b rng, b) := by
  by_cases h8 : 8 ≤ (availableMoves b).length
  · by_cases h4 : 4 ∈ availableMoves b
    · simp [hardSt, hardMove, h8, h4]
    · simp [hardSt, hardMove, h8, h4]
  · simp [hardSt, hardMove, h8, minimaxSt_eq]

theorem unbeatableSt_eq (b : Board) :
    unbeatableSt b = (unbeatableMove b, b) := by
  simp [unbeatableSt, unbeatableMove, minimaxSt_eq]

/-- C2: `minimax` and every tier's move selection hand the board back
bit-for-bit identical to the board they were called on, under every exit
path — including the alpha/beta pruning breaks and the win/block probing of
the Medium (and Easy) tier. -/
theorem board_restoration (useAB : Bool) (fuel : Nat) (b : Board) (depth : Nat)
    (isMax : Bool) (alpha beta : XInt) (coin : Bool) (rng : List Nat → Nat) :
    (minimaxSt useAB fuel b depth isMax alpha beta).2 = b
    ∧ (easySt b coin rng).2 = b
    ∧ (mediumSt b rng).2 = b
    ∧ (hardSt b rng).2 = b
    ∧ (unbeatableSt b).2 = b := by
  refine ⟨?_, ?_, ?_, ?_, ?_⟩
  · rw [minimaxSt_eq]
  · rw [easySt_eq]
  · rw [mediumSt_eq]
  · rw [hardSt_eq]
  · rw [unbeatableSt_eq]

/-! ### C1: pruning does not change the result of the search

The proof follows the classical fail-soft alpha-beta bound argument: a
pruned call with window `(alpha, beta)` returns a score squeezed between
`min v beta` and `max v alpha`, where `v` is the score of the full-width
search; at the root window `(-inf, inf)` the squeeze forces score and move
to coincide iteration by iteration. -/

theorem XInt.top_le_iff {x : XInt} : XInt.top ≤ x ↔ x = XInt.top := by
  cases x <;> simp [LE.le, XInt.le]

theorem XInt.le_bot_iff {x : XInt} : x ≤ XInt.bot ↔ x = XInt.bot := by
  cases x <;> simp [LE.le, XInt.le]

theorem XInt.num_ne_top (z : Int) : XInt.num z ≠ XInt.top := by simp

theorem XInt.num_ne_bot (z : Int) : XInt.num z ≠ XInt.bot := by simp

theorem ite_lt_max (a s : XInt) : (if a < s then s else a) = max a s := by
  by_cases h : a < s
  · rw [if_pos h, max_eq_right (le_of_lt h)]
  · rw [if_neg h, max_eq_left (le_of_not_lt h)]

theorem ite_lt_min (a s : XInt) : (if s < a then s else a) = min a s := by
  by_cases h : s < a
  · rw [if_pos h, min_eq_right (le_of_lt h)]
  · rw [if_neg h, min_eq_left (le_of_not_lt h)]

/-- The value computed by the full-width maximizing loop: fold of `max` over
the child scores. -/
def Vfold (tc : Nat → XInt) (ms : List Nat) (acc : XInt) : XInt :=
  ms.foldl (fun a m => max a (tc m)) acc

/-- The value computed by the full-width minimizing loop: fold of `min` over
the child scores. -/
def Wfold (tc : Nat → XInt) (ms : List Nat) (acc : XInt) : XInt :=
  ms.foldl (fun a m => min a (tc m)) acc

theorem Vfold_nil (tc : Nat → XInt) (acc : XInt) : Vfold tc [] acc = acc := rfl

theorem Vfold_cons (tc : Nat → XInt) (m : Nat) (t : List Nat) (acc : XInt) :
    Vfold tc (m :: t) acc = Vfold tc t (max acc (tc m)) := rfl

theorem Wfold_nil (tc : Nat → XInt) (acc : XInt) : Wfold tc [] acc = acc := rfl

theorem Wfold_cons (tc : Nat → XInt) (m : Nat) (t : List Nat) (acc : XInt) :
    Wfold tc (m :: t) acc = Wfold tc t (min acc (tc m)) := rfl

theorem acc_le_Vfold (tc : Nat → XInt) :
    ∀ (ms : List Nat) (acc : XInt), acc ≤ Vfold tc ms acc := by
  intro ms
  induction ms with
  | nil => intro acc; exact le_refl _
  | cons m t ih =>
    intro acc
    exact le_trans (le_max_left acc (tc m)) (ih (max acc (tc m)))

theorem Wfold_le_acc (tc : Nat → XInt) :
    ∀ (ms : List Nat) (acc : XInt), Wfold tc ms acc ≤ acc := by
  intro ms
  induction ms with
  | nil => intro acc; exact le_refl _
  | cons m t ih =>
    intro acc
    exact le_trans (ih (min acc (tc m))) (min_le_left acc (tc m))

theorem Vfold_acc (tc : Nat → XInt) :
    ∀ (ms : List Nat) (acc : XInt), Vfold tc ms acc = max acc (Vfold tc ms .bot) := by
  intro ms
  induction ms with
  | nil =>
    intro acc
    rw [Vfold_nil, Vfold_nil, max_eq_left (XInt.bot_le' acc)]
  | cons m t ih =>
    intro acc
    rw [Vfold_cons, Vfold_cons, ih (max acc (tc m)),
      ih (max XInt.bot (tc m)), max_eq_right (XInt.bot_le' (tc m)), max_assoc]

theorem Wfold_acc (tc : Nat → XInt) :
    ∀ (ms : List Nat) (acc : XInt), Wfold tc ms acc = min acc (Wfold tc ms .top) := by
  intro ms
  induction ms with
  | nil =>
    intro acc
    rw [Wfold_nil, Wfold_nil, min_eq_left (XInt.le_top' acc)]
  | cons m t ih =>
    intro acc
    rw [Wfold_cons, Wfold_cons, ih (min acc (tc m)),
      ih (min XInt.top (tc m)), min_eq_right (XInt.le_top' (tc m)), min_assoc]

/-- The full-width maximizing loop ignores its window and computes the
`max`-fold of the child scores taken at the entry window. -/
theorem maxLoop_false_fst (child : Nat → XInt → XInt → XInt) (beta : XInt) :
    ∀ (ms : List Nat) (alpha best : XInt) (bm : Int),
      (maxLoop child false beta ms alpha best bm).1
        = Vfold (fun m => child m alpha beta) ms best := by
  intro ms
  induction ms with
  | nil => intro alpha best bm; rfl
  | cons m t ih =>
    intro alpha best bm
    rw [maxLoop_cons]
    simp only [Bool.false_eq_true, if_false, ite_lt_max]
    rw [ih, Vfold_cons]

/-- The full-width minimizing loop ignores its window and computes the
`min`-fold of the child scores taken at the entry window. -/
theorem minLoop_false_fst (child : Nat → XInt → XInt → XInt) (alpha : XInt) :
    ∀ (ms : List Nat) (beta best : XInt) (bm : Int),
      (minLoop child false alpha ms beta best bm).1
        = Wfold (fun m => child m alpha beta) ms best := by
  intro ms
  induction ms with
  | nil => intro beta best bm; rfl
  | cons m t ih =>
    intro beta best bm
    rw [minLoop_cons]
    simp only [Bool.false_eq_true, if_false, ite_lt_min]
    rw [ih, Wfold_cons]

theorem maxLoop_cons_true (child : Nat → XInt → XInt → XInt) (beta : XInt) (m : Nat)
    (t : List Nat) (alpha best : XInt) (bm : Int) :
    maxLoop child true beta (m :: t) alpha best bm =
      if beta ≤ max alpha (child m alpha beta) then
        (max best (child m alpha beta), if best < child m alpha beta then (m : Int) else bm)
      else
        maxLoop child true beta t (max alpha (child m alpha beta))
          (max best (child m alpha beta))
          (if best < child m alpha beta then (m : Int) else bm) := by
  rw [maxLoop_cons]
  simp only [ite_lt_max, if_true]

theorem minLoop_cons_true (child : Nat → XInt → XInt → XInt) (alpha : XInt) (m : Nat)
    (t : List Nat) (beta best : XInt) (bm : Int) :
    minLoop child true alpha (m :: t) beta best bm =
      if min beta (child m alpha beta) ≤ alpha then
        (min best (child m alpha beta), if child m alpha beta < best then (m : Int) else bm)
      else
        minLoop child true alpha t (min beta (child m alpha beta))
          (min best (child m alpha beta))
          (if child m alpha beta < best then (m : Int) else bm) := by
  rw [minLoop_cons]
  simp only [ite_lt_min, if_true]

theorem maxLoop_cons_false (child : Nat → XInt → XInt → XInt) (beta : XInt) (m : Nat)
    (t : List Nat) (alpha best : XInt) (bm : Int) :
    maxLoop child false beta (m :: t) alpha best bm =
      maxLoop child false beta t alpha
        (if best < child m alpha beta then child m alpha beta else best)
        (if best < child m alpha beta then (m : Int) else bm) := rfl

theorem minLoop_cons_false (child : Nat → XInt → XInt → XInt) (alpha : XInt) (m : Nat)
    (t : List Nat) (beta best : XInt) (bm : Int) :
    minLoop child false alpha (m :: t) beta best bm =
      minLoop child false alpha t beta
        (if child m alpha beta < best then child m alpha beta else best)
        (if child m alpha beta < best then (m : Int) else bm) := rfl

/-- Fail-soft bound for the pruned maximizing loop: its score lies between
`min (full-width value) beta` and `max (full-width value) alpha`. -/
theorem maxLoopSq (prC : Nat → XInt → XInt → XInt) (tc : Nat → XInt) (beta : XInt)
    (hch : ∀ m a, a < beta → min (tc m) beta ≤ prC m a beta ∧ prC m a beta ≤ max (tc m) a) :
    ∀ (ms : List Nat) (alpha best : XInt) (bm : Int), alpha < beta → best ≤ alpha →
      min (Vfold tc ms best) beta ≤ (maxLoop prC true beta ms alpha best bm).1
      ∧ (maxLoop prC true beta ms alpha best bm).1 ≤ max (Vfold tc ms best) alpha := by
  intro ms
  induction ms with
  | nil =>
    intro alpha best bm hab hba
    exact ⟨min_le_left _ _, le_max_left _ _⟩
  | cons m t ih =>
    intro alpha best bm hab hba
    obtain ⟨hs1, hs2⟩ := hch m alpha hab
    rw [maxLoop_cons_true, Vfold_cons]
    by_cases hcut : beta ≤ max alpha (prC m alpha beta)
    · rw [if_pos hcut]
      have hbs : beta ≤ prC m alpha beta := by
        rcases le_max_iff.mp hcut with h | h
        · exact absurd h (not_le.mpr hab)
        · exact h
      constructor
      · exact le_trans (min_le_right _ _) (le_trans hbs (le_max_right _ _))
      · refine max_le ?_ ?_
        · exact le_trans hba (le_max_right _ _)
        · rcases le_max_iff.mp hs2 with h | h
          · exact le_trans h (le_trans (le_trans (le_max_right best (tc m))
              (acc_le_Vfold tc t (max best (tc m)))) (le_max_left _ _))
          · exact le_trans h (le_max_right _ _)
    · rw [if_neg hcut]
      have hab' : max alpha (prC m alpha beta) < beta := not_le.mp hcut
      have hsb : prC m alpha beta < beta := lt_of_le_of_lt (le_max_right _ _) hab'
      have hus : tc m ≤ prC m alpha beta := by
        rcases min_le_iff.mp hs1 with h | h
        · exact h
        · exact absurd h (not_le.mpr hsb)
      have hba' : max best (prC m alpha beta) ≤ max alpha (prC m alpha beta) :=
        max_le_max hba (le_refl _)
      obtain ⟨ih1, ih2⟩ := ih (max alpha (prC m alpha beta)) (max best (prC m alpha beta))
        (if best < prC m alpha beta then (m : Int) else bm) hab' hba'
      constructor
      · refine le_trans ?_ ih1
        refine min_le_min ?_ (le_refl beta)
        rw [Vfold_acc tc t (max best (tc m)), Vfold_acc tc t (max best (prC m alpha beta))]
        exact max_le_max (max_le_max (le_refl best) hus) (le_refl _)
      · refine le_trans ih2 ?_
        rw [Vfold_acc tc t (max best (prC m alpha beta)), Vfold_acc tc t (max best (tc m))]
        rcases le_max_iff.mp hs2 with hsu | hsa
        · have hsu' : prC m alpha beta = tc m := le_antisymm hsu hus
          rw [hsu']
          refine max_le (le_max_left _ _) (max_le (le_max_right _ _) ?_)
          exact le_trans (le_trans (le_max_right best (tc m)) (le_max_left _ _)) (le_max_left _ _)
        · refine max_le (max_le (max_le ?_ ?_) ?_) (max_le ?_ ?_)
          · exact le_trans (le_max_left best (tc m)) (le_trans (le_max_left _ _) (le_max_left _ _))
          · exact le_trans hsa (le_max_right _ _)
          · exact le_trans (le_max_right _ _) (le_max_left _ _)
          · exact le_max_right _ _
          · exact le_trans hsa (le_max_right _ _)

/-- Fail-soft bound for the pruned minimizing loop, dual to `maxLoopSq`. -/
theorem minLoopSq (prC : Nat → XInt → XInt → XInt) (tc : Nat → XInt) (alpha : XInt)
    (hch : ∀ m w, alpha < w → min (tc m) w ≤ prC m alpha w ∧ prC m alpha w ≤ max (tc m) alpha) :
    ∀ (ms : List Nat) (beta best : XInt) (bm : Int), alpha < beta → beta ≤ best →
      min (Wfold tc ms best) beta ≤ (minLoop prC true alpha ms beta best bm).1
      ∧ (minLoop prC true alpha ms beta best bm).1 ≤ max (Wfold tc ms best) alpha := by
  intro ms
  induction ms with
  | nil =>
    intro beta best bm hab hbb
    exact ⟨min_le_left _ _, le_max_left _ _⟩
  | cons m t ih =>
    intro beta best bm hab hbb
    obtain ⟨hs1, hs2⟩ := hch m beta hab
    rw [minLoop_cons_true, Wfold_cons]
    by_cases hcut : min beta (prC m alpha beta) ≤ alpha
    · rw [if_pos hcut]
      have hsa : prC m alpha beta ≤ alpha := by
        rcases min_le_iff.mp hcut with h | h
        · exact absurd h (not_le.mpr hab)
        · exact h
      constructor
      · refine le_min ?_ ?_
        · exact le_trans (min_le_left _ _)
            (le_trans (Wfold_le_acc tc t (min best (tc m))) (min_le_left _ _))
        · rcases min_le_iff.mp hs1 with h | h
          · exact le_trans (min_le_left _ _)
              (le_trans (Wfold_le_acc tc t (min best (tc m)))
                (le_trans (min_le_right best (tc m)) h))
          · exact le_trans (min_le_right _ _) h
      · exact le_trans (min_le_right _ _) (le_trans hsa (le_max_right _ _))
    · rw [if_neg hcut]
      have hab' : alpha < min beta (prC m alpha beta) := not_le.mp hcut
      have has : alpha < prC m alpha beta := lt_of_lt_of_le hab' (min_le_right _ _)
      have hsu : prC m alpha beta ≤ tc m := by
        rcases le_max_iff.mp hs2 with h | h
        · exact h
        · exact absurd h (not_le.mpr has)
      have hbb' : min beta (prC m alpha beta) ≤ min best (prC m alpha beta) :=
        min_le_min hbb (le_refl _)
      obtain ⟨ih1, ih2⟩ := ih (min beta (prC m alpha beta)) (min best (prC m alpha beta))
        (if prC m alpha beta < best then (m : Int) else bm) hab' hbb'
      constructor
      · refine le_trans ?_ ih1
        rw [Wfold_acc tc t (min best (tc m)), Wfold_acc tc t (min best (prC m alpha beta))]
        have hLs : min (min (min best (tc m)) (Wfold tc t .top)) beta ≤ prC m alpha beta := by
          rcases min_le_iff.mp hs1 with h | h
          · exact le_trans (min_le_left _ _)
              (le_trans (min_le_left _ _) (le_trans (min_le_right _ _) h))
          · exact le_trans (min_le_right _ _) h
        refine le_min (le_min (le_min ?_ hLs) ?_) (le_min ?_ hLs)
        · exact le_trans (min_le_left _ _)
            (le_trans (min_le_left _ _) (min_le_left _ _))
        · exact le_trans (min_le_left _ _) (min_le_right _ _)
        · exact min_le_right _ _
      · refine le_trans ih2 ?_
        refine max_le ?_ (le_max_right _ _)
        rw [Wfold_acc tc t (min best (prC m alpha beta)), Wfold_acc tc t (min best (tc m))]
        refine le_trans ?_ (le_max_left _ _)
        refine le_min (le_min ?_ ?_) (min_le_right _ _)
        · exact le_trans (min_le_left _ _) (min_le_left _ _)
        · exact le_trans (le_trans (min_le_left _ _) (min_le_right best (prC m alpha beta))) hsu

/-- The fail-soft alpha-beta bound for `minimax`: with any window
`(alpha, beta)`, the pruned score is squeezed between `min v beta` and
`max v alpha`, where `v` is the score of the full-width search. -/
theorem abSqueeze :
    ∀ (fuel : Nat) (b : Board) (depth : Nat) (isMax : Bool) (alpha beta : XInt),
      alpha < beta →
      min ((minimax false fuel b depth isMax .bot .top).1) beta
          ≤ (minimax true fuel b depth isMax alpha beta).1
      ∧ (minimax true fuel b depth isMax alpha beta).1
          ≤ max ((minimax false fuel b depth isMax .bot .top).1) alpha := by
  intro fuel
  induction fuel with
  | zero =>
    intro b depth isMax alpha beta hab
    exact ⟨min_le_left _ _, le_max_left _ _⟩
  | succ n ih =>
    intro b depth isMax alpha beta hab
    cases hterm : terminalResult b depth with
    | some r =>
      have h1 : (minimax true (n + 1) b depth isMax alpha beta).1 = r.1 := by
        simp [minimax, hterm]
      have h2 : (minimax false (n + 1) b depth isMax .bot .top).1 = r.1 := by
        simp [minimax, hterm]
      rw [h1, h2]
      exact ⟨min_le_left _ _, le_max_left _ _⟩
    | none =>
      cases isMax
      case false =>
        have hp : minimax true (n + 1) b depth false alpha beta
            = minLoop (fun m a w => (minimax true n (b.set m .O) (depth + 1) true a w).1)
                true alpha (availableMoves b) beta .top (-1) := by
          simp [minimax, hterm]
        have hv : (minimax false (n + 1) b depth false .bot .top).1
            = Wfold (fun m => (minimax false n (b.set m .O) (depth + 1) true .bot .top).1)
                (availableMoves b) .top := by
          simp [minimax, hterm, minLoop_false_fst]
        rw [hp, hv]
        exact minLoopSq _ _ alpha
          (fun m w hw => ih (b.set m .O) (depth + 1) true alpha w hw)
          (availableMoves b) beta .top (-1) hab (XInt.le_top' _)
      case true =>
        have hp : minimax true (n + 1) b depth true alpha beta
            = maxLoop (fun m a w => (minimax true n (b.set m .X) (depth + 1) false a w).1)
                true beta (availableMoves b) alpha .bot (-1) := by
          simp [minimax, hterm]
        have hv : (minimax false (n + 1) b depth true .bot .top).1
            = Vfold (fun m => (minimax false n (b.set m .X) (depth + 1) false .bot .top).1)
                (availableMoves b) .bot := by
          simp [minimax, hterm, maxLoop_false_fst]
        rw [hp, hv]
        exact maxLoopSq _ _ beta
          (fun m a ha => ih (b.set m .X) (depth + 1) false a beta ha)
          (availableMoves b) alpha .bot (-1) hab (XInt.bot_le' _)

/-- At the root window `(-inf, inf)` the pruned maximizing loop (where
`alpha` always equals the running best) computes exactly the pair of the
full-width loop. -/
theorem maxLoopRootEq (prC uC : Nat → XInt → XInt → XInt)
    (hsq : ∀ m a, a < XInt.top →
      min (uC m .bot .top) XInt.top ≤ prC m a .top
      ∧ prC m a .top ≤ max (uC m .bot .top) a)
    (hnum : ∀ m a, ∃ z, prC m a .top = .num z) :
    ∀ (ms : List Nat) (best : XInt) (bm : Int), (best = .bot ∨ ∃ z, best = .num z) →
      maxLoop prC true .top ms best best bm = maxLoop uC false .top ms .bot best bm := by
  intro ms
  induction ms with
  | nil => intro best bm _; rfl
  | cons m t ih =>
    intro best bm hbest
    have hblt : best < XInt.top := by
      rcases hbest with rfl | ⟨z, rfl⟩
      · exact XInt.bot_lt_top
      · exact XInt.num_lt_top z
    obtain ⟨hs1, hs2⟩ := hsq m best hblt
    have hus : uC m .bot .top ≤ prC m best .top := by
      rwa [min_eq_left (XInt.le_top' _)] at hs1
    obtain ⟨z, hz⟩ := hnum m best
    rw [maxLoop_cons_true, maxLoop_cons_false]
    have hncut : ¬ (XInt.top ≤ max best (prC m best .top)) := by
      intro hc
      have hmax := XInt.top_le_iff.mp hc
      rcases max_choice best (prC m best .top) with h | h
      · rw [h] at hmax
        rcases hbest with rfl | ⟨w, rfl⟩ <;> simp_all
      · rw [h, hz] at hmax
        exact XInt.num_ne_top z hmax
    rw [if_neg hncut]
    by_cases hlt : best < prC m best .top
    · have hsu : prC m best .top ≤ uC m .bot .top := by
        rcases le_max_iff.mp hs2 with h | h
        · exact h
        · exact absurd h (not_le.mpr hlt)
      have heq : prC m best .top = uC m .bot .top := le_antisymm hsu hus
      have hltu : best < uC m .bot .top := heq ▸ hlt
      rw [max_eq_right (le_of_lt hlt), if_pos hlt, if_pos hltu, if_pos hltu, heq]
      exact ih (uC m .bot .top) (m : Int) (Or.inr ⟨z, by rw [← heq, hz]⟩)
    · have hsb : prC m best .top ≤ best := not_lt.mp hlt
      have hub : ¬ (best < uC m .bot .top) := not_lt.mpr (le_trans hus hsb)
      rw [max_eq_left hsb, if_neg hlt, if_neg hub, if_neg hub]
      exact ih best bm hbest

/-- At the root window `(-inf, inf)` the pruned minimizing loop (where
`beta` always equals the running best) computes exactly the pair of the
full-width loop. -/
theorem minLoopRootEq (prC uC : Nat → XInt → XInt → XInt)
    (hsq : ∀ m w, XInt.bot < w →
      min (uC m .bot .top) w ≤ prC m .bot w
      ∧ prC m .bot w ≤ max (uC m .bot .top) XInt.bot)
    (hnum : ∀ m w, ∃ z, prC m .bot w = .num z) :
    ∀ (ms : List Nat) (best : XInt) (bm : Int), (best = .top ∨ ∃ z, best = .num z) →
      minLoop prC true .bot ms best best bm = minLoop uC false .bot ms .top best bm := by
  intro ms
  induction ms with
  | nil => intro best bm _; rfl
  | cons m t ih =>
    intro best bm hbest
    have hblt : XInt.bot < best := by
      rcases hbest with rfl | ⟨z, rfl⟩
      · exact XInt.bot_lt_top
      · exact XInt.bot_lt_num z
    obtain ⟨hs1, hs2⟩ := hsq m best hblt
    have hsu : prC m .bot best ≤ uC m .bot .top := by
      rwa [max_eq_left (XInt.bot_le' _)] at hs2
    obtain ⟨z, hz⟩ := hnum m best
    rw [minLoop_cons_true, minLoop_cons_false]
    have hncut : ¬ (min best (prC m .bot best) ≤ XInt.bot) := by
      intro hc
      have hmin := XInt.le_bot_iff.mp hc
      rcases min_choice best (prC m .bot best) with h | h
      · rw [h] at hmin
        rcases hbest with rfl | ⟨w, rfl⟩ <;> simp_all
      · rw [h, hz] at hmin
        exact XInt.num_ne_bot z hmin
    rw [if_neg hncut]
    by_cases hlt : prC m .bot best < best
    · have hus : uC m .bot .top ≤ prC m .bot best := by
        rcases min_le_iff.mp hs1 with h | h
        · exact h
        · exact absurd h (not_le.mpr hlt)
      have heq : prC m .bot best = uC m .bot .top := le_antisymm hsu hus
      have hltu : uC m .bot .top < best := heq ▸ hlt
      rw [min_eq_right (le_of_lt hlt), if_pos hlt, if_pos hltu, if_pos hltu, heq]
      exact ih (uC m .bot .top) (m : Int) (Or.inr ⟨z, by rw [← heq, hz]⟩)
    · have hbs : best ≤ prC m .bot best := not_lt.mp hlt
      have hub : ¬ (uC m .bot .top < best) := not_lt.mpr (le_trans hbs hsu)
      rw [min_eq_left hbs, if_neg hlt, if_neg hub, if_neg hub]
      exact ih best bm hbest

/-- C1: for every board (and in fact every fuel, depth and maximizing
flag), `minimax` with alpha-beta pruning enabled and with pruning disabled,
both called on the default full window, return the identical
`(score, best_move)` pair — ties are broken by the first move in the
ascending-index iteration order in both cases. -/
theorem minimax_pruning_equiv (fuel : Nat) (b : Board) (depth : Nat) (isMax : Bool) :
    minimax true fuel b depth isMax .bot .top
      = minimax false fuel b depth isMax .bot .top := by
  cases fuel with
  | zero => rfl
  | succ n =>
    cases hterm : terminalResult b depth with
    | some r => simp [minimax, hterm]
    | none =>
      cases isMax
      case false =>
        have h := minLoopRootEq
          (fun m a w => (minimax true n (b.set m .O) (depth + 1) true a w).1)
          (fun m a w => (minimax false n (b.set m .O) (depth + 1) true a w).1)
          (fun m w hw => abSqueeze n (b.set m .O) (depth + 1) true .bot w hw)
          (fun m w => minimax_fst_num true n (b.set m .O) (depth + 1) true .bot w)
          (availableMoves b) .top (-1) (Or.inl rfl)
        simpa [minimax, hterm] using h
      case true =>
        have h := maxLoopRootEq
          (fun m a w => (minimax true n (b.set m .X) (depth + 1) false a w).1)
          (fun m a w => (minimax false n (b.set m .X) (depth + 1) false a w).1)
          (fun m a ha => abSqueeze n (b.set m .X) (depth + 1) false a .top ha)
          (fun m a => minimax_fst_num true n (b.set m .X) (depth + 1) false a .top)
          (availableMoves b) .bot (-1) (Or.inl rfl)
        simpa [minimax, hterm] using h

end TicTacAI
